import Mathlib

/-!
Verification of the ptree ORM model layer: match lifecycle predicates
(src/ptree/models/matches.py) and the sequence-of-experiments linked-list
bookkeeping (src/ptree/sequence_of_experiments/models.py).

The Python code is shallowly embedded: model rows become Lean structures,
foreign-key pointer fields become explicit maps from row ids to optional
row ids, and the per-row `save()` calls are absorbed into pure state
updates (in the model, in-memory state and persisted state coincide).
Python truthiness is made explicit wherever a non-boolean value is used
in boolean position.
-/

/-- Errors the model code can raise: the abstract-method failure of
`BaseMatch.is_ready_for_next_participant` and the iterator exhaustion of
`MatchManager.next_open_match`. -/
inductive PyError where
  | notImplementedError
  | stopIteration
deriving DecidableEq

/-- Modelled from the spec: the Treatment model is not under src/; per the
glossary a treatment is a "configuration variant of a game (capacity, code)
assigned to a match", so it carries a code and the per-match capacity read
by `BaseMatch.is_full`. -/
structure Treatment where
  code : String
  participants_per_match : Nat
deriving DecidableEq

/-- Modelled from the spec: the per-app Participant model read by the match
predicates is not under src/; the match code reads a completion flag
(`is_finished`, "finished once all participants report completion") and the
two-person game reads `is_finished_playing()`. -/
structure MatchParticipant where
  is_finished : Bool
  is_finished_playing : Bool
deriving DecidableEq

/-- A `BaseMatch` row as the lifecycle predicates see it: its treatment
(a foreign key declared on per-app subclasses) and its `participant_set`. -/
structure BaseMatch where
  treatment : Treatment
  participant_set : List MatchParticipant
deriving DecidableEq

/-- Method `BaseMatch.participants`: syntactic sugar for `self.participant_set.all()`. -/
def BaseMatch.participants (m : BaseMatch) : List MatchParticipant :=
  m.participant_set

/-- Method `BaseMatch.is_full`: `len(self.participants()) >= self.treatment.participants_per_match`. -/
def BaseMatch.is_full (m : BaseMatch) : Bool :=
  m.participants.length ≥ m.treatment.participants_per_match

/-- Python truthiness of a list: a list is truthy iff it is non-empty. -/
def pyListTruthy {α : Type} (l : List α) : Bool :=
  !l.isEmpty

/-- Method `BaseMatch.is_finished`: the source returns
`self.is_full() and [participant.is_finished for participant in self.participants()]`,
so the value in boolean position is the conjunction of `is_full()` with the
truthiness of the list comprehension — which depends only on whether the
participant list is empty, not on the elements. -/
def BaseMatch.is_finished (m : BaseMatch) : Bool :=
  m.is_full && pyListTruthy (m.participants.map MatchParticipant.is_finished)

/-- Method `BaseMatch.is_ready_for_next_participant`: the abstract base method; it
raises `NotImplementedError()` unconditionally. (`is_full` and `is_finished`
are total functions of the row: they have no failure mode in the model.) -/
def BaseMatch.is_ready_for_next_participant (_m : BaseMatch) : Except PyError Bool :=
  Except.error PyError.notImplementedError

/-- A `MatchInTwoPersonAsymmetricGame` row: the two participant slots
(`participant_2` is nullable in the schema; `participant_1` is optional in
the model because the source guards it with a truthiness test). -/
structure MatchInTwoPersonAsymmetricGame where
  participant_1 : Option MatchParticipant
  participant_2 : Option MatchParticipant
deriving DecidableEq

/-- Method `MatchInTwoPersonAsymmetricGame.is_ready_for_next_participant`: truthiness of
`self.participant_1 and self.participant_1.is_finished_playing() and not self.participant_2`. -/
def MatchInTwoPersonAsymmetricGame.is_ready_for_next_participant
    (m : MatchInTwoPersonAsymmetricGame) : Bool :=
  match m.participant_1 with
  | none => false
  | some p1 => p1.is_finished_playing && m.participant_2.isNone

/-- The session data `next_open_match` reads:
`request.session[Symbols.treatment_code]`. -/
structure Session where
  treatment_code : String

/-- A request as `next_open_match` sees it. -/
structure Request where
  session : Session

/-- Method `MatchManager.next_open_match`: scans the stored match rows in order and
returns the first whose treatment code equals the code in the request's
session and whose `is_ready_for_next_participant()` is truthy; the generator's
`.next()` raises `StopIteration` when no row qualifies. The manager is
generic over the concrete match class, so the row type is a parameter
together with the two observations the filter makes on a row. -/
def MatchManager.next_open_match {M : Type} (treatmentCode : M → String)
    (isReady : M → Bool) (request : Request) : List M → Except PyError M
  | [] => Except.error PyError.stopIteration
  | m :: rest =>
      if treatmentCode m = request.session.treatment_code ∧ isReady m = true then
        Except.ok m
      else
        MatchManager.next_open_match treatmentCode isReady request rest

/-- The filter `next_open_match` applies to one stored row. -/
def MatchManager.openFor {M : Type} (treatmentCode : M → String)
    (isReady : M → Bool) (request : Request) (m : M) : Prop :=
  treatmentCode m = request.session.treatment_code ∧ isReady m = true

instance {M : Type} (tc : M → String) (r : M → Bool) (q : Request) (m : M) :
    Decidable (MatchManager.openFor tc r q m) := by
  unfold MatchManager.openFor
  infer_instance

/-- The pointer state of the experiment chain of one `SequenceOfExperiments`:
the sequence's `first_experiment` generic foreign key, and the
`next_experiment` / `previous_experiment` foreign keys of the experiment
rows, as maps from experiment row ids to optional row ids. -/
structure ExpState where
  first_experiment : Option Nat
  next_experiment : Nat → Option Nat
  previous_experiment : Nat → Option Nat

/-- Update one pointer map at one row id (one foreign-key assignment plus its
`save()`). -/
def setPtr (f : Nat → Option Nat) (a b : Nat) : Nat → Option Nat :=
  fun x => if x = a then some b else f x

/-- The loop of `add_experiments`:
`for i in range(len(experiments) - 1)` wires
`experiments[i].next_experiment = experiments[i + 1]` and
`experiments[i + 1].previous_experiment = experiments[i]`, in ascending
order of `i`. -/
def wirePairs (s : ExpState) : List Nat → ExpState
  | [] => s
  | [_] => s
  | a :: b :: rest =>
      wirePairs
        { s with
          next_experiment := setPtr s.next_experiment a b
          previous_experiment := setPtr s.previous_experiment b a }
        (b :: rest)

/-- Method `SequenceOfExperiments.add_experiments`: sets `first_experiment` to
`experiments[0]` and wires the next/previous pointers pairwise. (On the
empty list the Python raises IndexError at `experiments[0]`; the model keeps
`first_experiment` at `none` there — every claim about this method assumes a
non-empty list.) -/
def SequenceOfExperiments.add_experiments (s : ExpState) (exps : List Nat) : ExpState :=
  wirePairs { s with first_experiment := exps.head? } exps

/-- The while-loop shared by `SequenceOfExperiments.experiments()` and
`Participant.participants()`: follow the pointer map from the start row,
appending each visited row, until a null pointer. The loop has no bound in
the source; the embedding takes fuel and returns `none` when the fuel runs
out before a null pointer is reached. -/
def walkChain (next : Nat → Option Nat) : Option Nat → Nat → Option (List Nat)
  | none, _ => some []
  | some _, 0 => none
  | some e, fuel + 1 => (walkChain next (next e) fuel).map (fun l => e :: l)

/-- Method `SequenceOfExperiments.experiments()`: walks `first_experiment` then
`next_experiment` pointers until `None`, materialising the chain. -/
def SequenceOfExperiments.experiments (s : ExpState) (fuel : Nat) : Option (List Nat) :=
  walkChain s.next_experiment s.first_experiment fuel

/-- The pointer state of one participant's per-experiment chain:
`me_in_first_experiment` on the `Participant` row and the
`me_in_next_experiment` pointers of the per-experiment participant rows. -/
structure PartState where
  me_in_first_experiment : Option Nat
  me_in_next_experiment : Nat → Option Nat

/-- Method `Participant.participants()`: walks `me_in_first_experiment` then
`me_in_next_experiment` pointers until `None`. -/
def Participant.participants (p : PartState) (fuel : Nat) : Option (List Nat) :=
  walkChain p.me_in_next_experiment p.me_in_first_experiment fuel

/-- Row id reached after `n` pointer dereferences from `start` (`none` once
the chain has ended). `none` after `n` steps means the chain starting at
`start` terminates within `n` nodes. -/
def iterNext (next : Nat → Option Nat) : Option Nat → Nat → Option Nat
  | cur, 0 => cur
  | none, _ + 1 => none
  | some e, n + 1 => iterNext next (next e) n

/-- The `me_in_next_experiment` / `me_in_previous_experiment` foreign keys of
the per-experiment participant rows, as maps from participant row ids. -/
structure LinkState where
  me_in_next_experiment : Nat → Option Nat
  me_in_previous_experiment : Nat → Option Nat

/-- The inner loop of `connect_participants_between_experiments`:
`for participant_index in range(num_participants)` links
`participants_left[i].me_in_next_experiment = participants_right[i]` and
`participants_right[i].me_in_previous_experiment = participants_left[i]`,
in ascending order of `i` (`i` starts at `i0`; `cnt` iterations remain).
List indexing is embedded with a default (the Python raises IndexError out
of range; the claims' preconditions keep every index in range). -/
def connectPair (left right : List Nat) : LinkState → Nat → Nat → LinkState
  | st, _, 0 => st
  | st, i, cnt + 1 =>
      connectPair left right
        { me_in_next_experiment :=
            setPtr st.me_in_next_experiment (left.getD i 0) (right.getD i 0)
          me_in_previous_experiment :=
            setPtr st.me_in_previous_experiment (right.getD i 0) (left.getD i 0) }
        (i + 1) cnt

/-- The outer loop of `connect_participants_between_experiments`:
`for experiment_index in range(len(experiments) - 1)` links the participant
lists of each adjacent pair of experiments positionally, where
`num = len(self.participants())` is the sequence's participant count and
`partLists` are the experiments' participant lists in chain order. -/
def SequenceOfExperiments.connect_participants_between_experiments
    (st : LinkState) (num : Nat) : List (List Nat) → LinkState
  | [] => st
  | [_] => st
  | l :: r :: rest =>
      SequenceOfExperiments.connect_participants_between_experiments
        (connectPair l r st 0 num) num (r :: rest)

/-- Modelled from the spec: `ptree.constants` is not under src/; the query
parameter name under which the sequence URL helper sends its value. The
exact string is immaterial to the claims; the identifier used in the source
is kept as the value. -/
def constants.sequence_of_experiments_code : String :=
  "sequence_of_experiments_code"

/-- Modelled from the spec: `ptree.constants` is not under src/; the query
parameter name under which a participant's code is sent. -/
def constants.participant_in_sequence_of_experiments_code : String :=
  "participant_in_sequence_of_experiments_code"

/-- Modelled from the spec: `ptree.common.add_params_to_url` is not under
src/; per the spec the URL helpers "construct redirect URLs embedding
sequence/participant codes as query parameters — … just URL templating", so
each key/value pair is appended to the URL's query string. -/
def add_params_to_url (url : String) (params : List (String × String)) : String :=
  params.foldl (fun u kv => u ++ "&" ++ kv.1 ++ "=" ++ kv.2) url

/-- A `SequenceOfExperiments` row as its display and URL helpers see it:
primary key (`pk` = `id`), nullable `label`, and the `code` access code. -/
structure SequenceOfExperimentsRow where
  id : Nat
  label : Option String
  code : String
deriving DecidableEq

/-- Method `SequenceOfExperiments.start_url`: the source formats
`'/InitializeSequence/?{}={}'.format(constants.sequence_of_experiments_code, self.id)` —
the value placed after `=` is the row's `id`, not its `code`. -/
def SequenceOfExperiments.start_url (s : SequenceOfExperimentsRow) : String :=
  "/InitializeSequence/?" ++ constants.sequence_of_experiments_code ++ "=" ++ toString s.id

/-- A `Participant` row as `start_url` sees it: its sequence and its code
(the `code` field is modelled from the spec — the participant's access-code
field is not in the src/ excerpt, which only shows its use). -/
structure ParticipantRow where
  sequence_of_experiments : SequenceOfExperimentsRow
  code : String
deriving DecidableEq

/-- Method `Participant.start_url`: `add_params_to_url(self.sequence_of_experiments.start_url(),
{constants.participant_in_sequence_of_experiments_code: self.code})`. -/
def Participant.start_url (p : ParticipantRow) : String :=
  add_params_to_url (SequenceOfExperiments.start_url p.sequence_of_experiments)
    [(constants.participant_in_sequence_of_experiments_code, p.code)]

/-- A URL embeds `value` as the query parameter named `key` when the text
`key=value` occurs in it. -/
def embedsQueryParam (url key value : String) : Prop :=
  List.IsInfix (key.toList ++ '=' :: value.toList) url.toList

instance (url key value : String) : Decidable (embedsQueryParam url key value) := by
  unfold embedsQueryParam
  infer_instance

/-- The possible values of `SequenceOfExperiments.name()`: the bound method
object `self.name` itself, or a display string. -/
inductive NameReturn where
  | boundMethod
  | str (s : String)
deriving DecidableEq

/-- Python truthiness of a bound method object: always true. The guard
`if self.name:` in `SequenceOfExperiments.name` tests the method attribute
itself, never a stored value. -/
def pyMethodTruthy : Bool :=
  true

/-- Python truthiness of a nullable string field: true iff present and
non-empty. -/
def pyOptStrTruthy : Option String → Bool
  | none => false
  | some s => !(s == "")

/-- Method `SequenceOfExperiments.name`: the source is
`if self.name: return self.name`, then builds a label- or experiment-list
postfix and returns `'{}: {}'.format(self.pk, postfix)`. The arguments are
the attributes the body reads: the primary key, the nullable `label`, and
the `'{app_label} {experiment}'` display strings of `self.experiments()`. -/
def SequenceOfExperiments.name (pk : Nat) (label : Option String)
    (experiment_names : List String) : NameReturn :=
  if pyMethodTruthy then NameReturn.boundMethod
  else
    NameReturn.str (toString pk ++ ": " ++
      (if pyOptStrTruthy label then label.getD ""
       else if experiment_names.isEmpty then "[empty sequence]"
       else String.intercalate ", " experiment_names))

/-- C1: the claim says `is_finished()` is true iff the match is full and
every participant's `is_finished` is true. The source instead conjoins
`is_full()` with the truthiness of the *list* `[participant.is_finished for
participant in self.participants()]`, which is non-empty (hence truthy)
for any full match with at least one participant. Its own docstring
("Whether the match is completed") and the spec's lifecycle sentence state
the intent; the missing `all(...)` is a slip in the code. Witnessed here at
a full match (capacity 1) whose only participant is unfinished: the code
reports it finished. -/
theorem C1_is_finished_code_bug :
    BaseMatch.is_finished ⟨⟨"t", 1⟩, [⟨false, false⟩]⟩ = true ∧
    ¬ (∀ p ∈ BaseMatch.participants ⟨⟨"t", 1⟩, [⟨false, false⟩]⟩, p.is_finished = true) := by
  decide

/-- C5: for a two-person asymmetric game match, `is_ready_for_next_participant()`
is truthy iff participant 1 is set, participant 1 has finished playing, and
participant 2 is unset. -/
theorem C5_two_person_ready_iff (m : MatchInTwoPersonAsymmetricGame) :
    m.is_ready_for_next_participant = true ↔
      ((∃ p1, m.participant_1 = some p1 ∧ p1.is_finished_playing = true) ∧
        m.participant_2 = none) := by
  cases h : m.participant_1 with
  | none =>
      simp [MatchInTwoPersonAsymmetricGame.is_ready_for_next_participant, h]
  | some p1 =>
      simp [MatchInTwoPersonAsymmetricGame.is_ready_for_next_participant, h,
        Option.isNone_iff_eq_none, and_comm]

/-- C6: `is_full()` is true iff the number of participants in the match is at
least the treatment's configured `participants_per_match` capacity. -/
theorem C6_is_full_iff (m : BaseMatch) :
    m.is_full = true ↔ m.participants.length ≥ m.treatment.participants_per_match := by
  simp [BaseMatch.is_full]

/-- C9: on the base class the lifecycle predicate
`is_ready_for_next_participant()` raises `NotImplementedError` on every
match row — unconditionally, and with no other error; the remaining
lifecycle predicates (`is_full`, `is_finished`) are total functions in the
embedding, so the abstract-method failure is the only failure mode. -/
theorem C9_base_ready_not_implemented (m : BaseMatch) :
    m.is_ready_for_next_participant = Except.error PyError.notImplementedError := rfl

/-- C10: `SequenceOfExperiments.name()` tests `if self.name:` — the attribute
is the bound method itself, which is always truthy in Python — so for every
primary key, label and experiment list the call returns the method object
from the first branch and never the computed display string. -/
theorem C10_name_short_circuits (pk : Nat) (label : Option String)
    (experiment_names : List String) :
    SequenceOfExperiments.name pk label experiment_names = NameReturn.boundMethod := rfl

/-- Unfolding of the scan of `next_open_match` one stored row at a time. -/
theorem next_open_match_cons {M : Type} (tc : M → String) (ready : M → Bool)
    (req : Request) (a : M) (rest : List M) :
    MatchManager.next_open_match tc ready req (a :: rest) =
      if MatchManager.openFor tc ready req a then Except.ok a
      else MatchManager.next_open_match tc ready req rest := rfl

/-- C2: `next_open_match` returns the first stored match whose treatment code
equals the code in the request's session and which is ready for the next
participant (every earlier stored row fails the filter), and it raises
`StopIteration` precisely when no stored match passes the filter. -/
theorem C2_next_open_match_spec {M : Type} (tc : M → String) (ready : M → Bool)
    (req : Request) (stored : List M) :
    (∀ m : M, MatchManager.next_open_match tc ready req stored = Except.ok m ↔
      ∃ pre post, stored = pre ++ m :: post ∧
        (∀ x ∈ pre, ¬ MatchManager.openFor tc ready req x) ∧
        MatchManager.openFor tc ready req m) ∧
    (MatchManager.next_open_match tc ready req stored = Except.error PyError.stopIteration ↔
      ∀ x ∈ stored, ¬ MatchManager.openFor tc ready req x) := by
  induction stored with
  | nil =>
      constructor
      · intro m
        constructor
        · intro h
          exact absurd h (by simp [MatchManager.next_open_match])
        · rintro ⟨pre, post, h, -, -⟩
          exact absurd h (by simp)
      · simp [MatchManager.next_open_match]
  | cons a rest ih =>
      by_cases ha : MatchManager.openFor tc ready req a
      · constructor
        · intro m
          rw [next_open_match_cons, if_pos ha]
          constructor
          · intro h
            have ham : a = m := Except.ok.inj h
            subst ham
            exact ⟨[], rest, rfl, by simp, ha⟩
          · rintro ⟨pre, post, hdec, hpre, hm⟩
            cases pre with
            | nil =>
                simp only [List.nil_append, List.cons.injEq] at hdec
                rw [hdec.1]
            | cons b pre2 =>
                simp only [List.cons_append, List.cons.injEq] at hdec
                exact absurd (hdec.1 ▸ ha) (hpre b (List.mem_cons_self b pre2))
        · rw [next_open_match_cons, if_pos ha]
          constructor
          · intro h
            cases h
          · intro h
            exact absurd ha (h a (List.mem_cons_self a rest))
      · constructor
        · intro m
          rw [next_open_match_cons, if_neg ha, (ih.1 m)]
          constructor
          · rintro ⟨pre, post, hdec, hpre, hm⟩
            refine ⟨a :: pre, post, by rw [hdec]; rfl, ?_, hm⟩
            intro x hx
            rcases List.mem_cons.mp hx with hxa | hxp
            · exact hxa ▸ ha
            · exact hpre x hxp
          · rintro ⟨pre, post, hdec, hpre, hm⟩
            cases pre with
            | nil =>
                simp only [List.nil_append, List.cons.injEq] at hdec
                exact absurd (hdec.1 ▸ hm) ha
            | cons b pre2 =>
                simp only [List.cons_append, List.cons.injEq] at hdec
                exact ⟨pre2, post, hdec.2, fun x hx => hpre x (List.mem_cons_of_mem b hx), hm⟩
        · rw [next_open_match_cons, if_neg ha, ih.2]
          constructor
          · intro h x hx
            rcases List.mem_cons.mp hx with hxa | hxp
            · exact hxa ▸ ha
            · exact h x hxp
          · intro h x hx
            exact h x (List.mem_cons_of_mem a hx)

/-- Wiring the chain never changes the sequence's head pointer. -/
theorem wirePairs_first (l : List Nat) : ∀ (s : ExpState),
    (wirePairs s l).first_experiment = s.first_experiment := by
  induction l with
  | nil => intro s; rfl
  | cons a t ih =>
      intro s
      cases t with
      | nil => rfl
      | cons b r => exact ih _

/-- Wiring the chain touches the `next_experiment` pointer only of rows that
occur in the list. -/
theorem wirePairs_next_not_mem (l : List Nat) : ∀ (s : ExpState) (x : Nat), x ∉ l →
    (wirePairs s l).next_experiment x = s.next_experiment x := by
  induction l with
  | nil => intro s x _; rfl
  | cons a t ih =>
      intro s x hx
      cases t with
      | nil => rfl
      | cons b r =>
          have hxa : x ≠ a := fun h => hx (h ▸ List.mem_cons_self a (b :: r))
          have hxt : x ∉ b :: r := fun h => hx (List.mem_cons_of_mem a h)
          calc (wirePairs s (a :: b :: r)).next_experiment x
              = setPtr s.next_experiment a b x := ih _ x hxt
            _ = s.next_experiment x := if_neg hxa

/-- Walking the freshly wired chain from its head returns exactly the wired
list, provided the list repeats no row and the rows' next pointers were
null beforehand. -/
theorem walk_wired (t : List Nat) : ∀ (a : Nat) (s : ExpState),
    (a :: t).Nodup → (∀ e ∈ a :: t, s.next_experiment e = none) →
    walkChain (wirePairs s (a :: t)).next_experiment (some a) (a :: t).length =
      some (a :: t) := by
  induction t with
  | nil =>
      intro a s _ hinit
      have ha : s.next_experiment a = none := hinit a (List.mem_cons_self a [])
      simp [wirePairs, walkChain, ha]
  | cons b r ih =>
      intro a s hnd hinit
      have hab : a ∉ b :: r := by
        intro h
        exact (List.nodup_cons.mp hnd).1 h
      have hndt : (b :: r).Nodup := (List.nodup_cons.mp hnd).2
      have hstep : (wirePairs s (a :: b :: r)).next_experiment a = some b := by
        have h1 : (wirePairs s (a :: b :: r)).next_experiment a =
            setPtr s.next_experiment a b a := by
          show (wirePairs _ (b :: r)).next_experiment a = _
          exact wirePairs_next_not_mem (b :: r) _ a hab
        rw [h1]
        exact if_pos rfl
      have hinit2 : ∀ e ∈ b :: r,
          (setPtr s.next_experiment a b) e = none := by
        intro e he
        have hea : e ≠ a := fun h => hab (h ▸ he)
        calc setPtr s.next_experiment a b e
            = s.next_experiment e := if_neg hea
          _ = none := hinit e (List.mem_cons_of_mem a he)
      have hrec := ih b
        { s with
          next_experiment := setPtr s.next_experiment a b
          previous_experiment := setPtr s.previous_experiment b a }
        hndt hinit2
      show walkChain _ (some a) ((b :: r).length + 1) = _
      rw [walkChain, hstep]
      have : wirePairs s (a :: b :: r) =
          wirePairs
            { s with
              next_experiment := setPtr s.next_experiment a b
              previous_experiment := setPtr s.previous_experiment b a }
            (b :: r) := rfl
      rw [this, hrec]
      rfl

/-- An empty pointer state: no head pointer, every next/previous pointer
null. -/
def expStateEmpty : ExpState :=
  { first_experiment := none
    next_experiment := fun _ => none
    previous_experiment := fun _ => none }

/-- C3 fails as frozen: the claim quantifies over every non-empty ordered
list with initially-null next pointers, but on a list with a repeated
experiment, `add_experiments` wires the row's `next_experiment` onto itself,
so the chain walked by `experiments()` is cyclic and the round trip breaks.
Here the list `[0, 0]` satisfies the claim's stated preconditions (non-empty,
all next pointers initially null), yet `experiments()` cannot return the
two-element input: row 0 points to itself, so the walk never reaches a null
pointer at any fuel. -/
theorem C3_round_trip_counterexample :
    SequenceOfExperiments.experiments
        (SequenceOfExperiments.add_experiments expStateEmpty [0, 0]) 2 ≠ some [0, 0] ∧
    (SequenceOfExperiments.add_experiments expStateEmpty [0, 0]).next_experiment 0 = some 0 ∧
    (∀ e ∈ [0, 0], expStateEmpty.next_experiment e = none) := by
  decide

/-- C3 amended: for every non-empty *duplicate-free* ordered list of
experiments whose `next_experiment` pointers are initially null, after
`add_experiments` the traversal `experiments()` (with fuel equal to the
input length, which the acyclic chain makes sufficient) returns exactly the
experiments of the input list, in the same order and with the same
length. -/
theorem C3_round_trip_amended (s : ExpState) (exps : List Nat)
    (hne : exps ≠ []) (hnd : exps.Nodup)
    (hinit : ∀ e ∈ exps, s.next_experiment e = none) :
    SequenceOfExperiments.experiments
      (SequenceOfExperiments.add_experiments s exps) exps.length = some exps := by
  cases exps with
  | nil => exact absurd rfl hne
  | cons a t =>
      unfold SequenceOfExperiments.experiments SequenceOfExperiments.add_experiments
      rw [wirePairs_first]
      show walkChain _ (some a) _ = _
      exact walk_wired t a _ hnd hinit

/-- C3 witness: the amended round trip at the concrete list `[1, 2, 3]` over
the empty pointer state. -/
theorem C3_round_trip_witness :
    SequenceOfExperiments.experiments
      (SequenceOfExperiments.add_experiments expStateEmpty [1, 2, 3]) 3 = some [1, 2, 3] :=
  C3_round_trip_amended expStateEmpty [1, 2, 3] (by decide) (by decide) (by decide)

/-- Stepping from an already-ended chain stays ended. -/
theorem iterNext_none (next : Nat → Option Nat) : ∀ (k : Nat),
    iterNext next none k = none := by
  intro k
  cases k with
  | zero => rfl
  | succ n => rfl

/-- The fuel-bounded walk of a chain that reaches a null pointer within the
fuel returns the visited rows: the list's length is the number of pointer
dereferences to the null (the chain length), and its entries are the rows
at each step. -/
theorem walkChain_terminating (next : Nat → Option Nat) : ∀ (n : Nat) (start : Option Nat),
    iterNext next start n = none →
    ∃ l, walkChain next start n = some l ∧
      iterNext next start l.length = none ∧
      ∀ i : Fin l.length, iterNext next start i.val = some (l.get i) := by
  intro n
  induction n with
  | zero =>
      intro start h
      cases start with
      | none => exact ⟨[], rfl, rfl, fun i => absurd i.isLt (by simp)⟩
      | some e => exact absurd h (by simp [iterNext])
  | succ n ih =>
      intro start h
      cases start with
      | none =>
          exact ⟨[], rfl, rfl, fun i => absurd i.isLt (by simp)⟩
      | some e =>
          have h2 : iterNext next (next e) n = none := h
          obtain ⟨l2, hw, hlen, hget⟩ := ih (next e) h2
          refine ⟨e :: l2, ?_, hlen, ?_⟩
          · show (walkChain next (next e) n).map (fun l => e :: l) = _
            rw [hw]
            rfl
          · intro i
            match i with
            | ⟨0, _⟩ => rfl
            | ⟨j + 1, hj⟩ =>
                have hj2 : j < l2.length := Nat.lt_of_succ_lt_succ hj
                show iterNext next (next e) j = some ((e :: l2).get ⟨j + 1, hj⟩)
                exact hget ⟨j, hj2⟩

/-- C7: when the pointer chain from the head reaches a null pointer within
`n` steps (the acyclicity/termination invariant), `SequenceOfExperiments.experiments()`
run with fuel `n` terminates with the full chain: the returned list's length
is the chain length (the pointer iteration first hits null at exactly that
many steps) and its `i`-th entry is the row reached after `i` dereferences;
and likewise `Participant.participants()` for the participant chain. -/
theorem C7_traversals_terminate (s : ExpState) (p : PartState) (n m : Nat)
    (hs : iterNext s.next_experiment s.first_experiment n = none)
    (hp : iterNext p.me_in_next_experiment p.me_in_first_experiment m = none) :
    (∃ l, SequenceOfExperiments.experiments s n = some l ∧
      iterNext s.next_experiment s.first_experiment l.length = none ∧
      ∀ i : Fin l.length,
        iterNext s.next_experiment s.first_experiment i.val = some (l.get i)) ∧
    (∃ l, Participant.participants p m = some l ∧
      iterNext p.me_in_next_experiment p.me_in_first_experiment l.length = none ∧
      ∀ i : Fin l.length,
        iterNext p.me_in_next_experiment p.me_in_first_experiment i.val = some (l.get i)) :=
  ⟨walkChain_terminating s.next_experiment n s.first_experiment hs,
   walkChain_terminating p.me_in_next_experiment m p.me_in_first_experiment hp⟩

/-- A two-row experiment chain 1 → 2 used as a concrete witness state. -/
def expStateChain : ExpState :=
  { first_experiment := some 1
    next_experiment := fun e => if e = 1 then some 2 else none
    previous_experiment := fun _ => none }

/-- A two-row participant chain 5 → 6 used as a concrete witness state. -/
def partStateChain : PartState :=
  { me_in_first_experiment := some 5
    me_in_next_experiment := fun e => if e = 5 then some 6 else none }

/-- C7 witness: both traversals at the concrete two-row chains, with fuel 2. -/
theorem C7_traversals_witness :
    (∃ l, SequenceOfExperiments.experiments expStateChain 2 = some l ∧
      iterNext expStateChain.next_experiment expStateChain.first_experiment l.length = none ∧
      ∀ i : Fin l.length,
        iterNext expStateChain.next_experiment expStateChain.first_experiment i.val =
          some (l.get i)) ∧
    (∃ l, Participant.participants partStateChain 2 = some l ∧
      iterNext partStateChain.me_in_next_experiment partStateChain.me_in_first_experiment
        l.length = none ∧
      ∀ i : Fin l.length,
        iterNext partStateChain.me_in_next_experiment partStateChain.me_in_first_experiment
          i.val = some (l.get i)) :=
  C7_traversals_terminate expStateChain partStateChain 2 2 (by decide) (by decide)

/-- The inner linking loop touches the `me_in_next_experiment` pointer only
of the left-list rows at the positions it visits. -/
theorem connectPair_next_preserve (left right : List Nat) (x : Nat) :
    ∀ (cnt i0 : Nat) (st : LinkState),
    (∀ j, i0 ≤ j → j < i0 + cnt → left.getD j 0 ≠ x) →
    (connectPair left right st i0 cnt).me_in_next_experiment x =
      st.me_in_next_experiment x := by
  intro cnt
  induction cnt with
  | zero => intro i0 st _; rfl
  | succ c ih =>
      intro i0 st hj
      have hrec := ih (i0 + 1)
        { me_in_next_experiment :=
            setPtr st.me_in_next_experiment (left.getD i0 0) (right.getD i0 0)
          me_in_previous_experiment :=
            setPtr st.me_in_previous_experiment (right.getD i0 0) (left.getD i0 0) }
        (fun j h1 h2 => hj j (Nat.le_of_succ_le h1) (by omega))
      calc (connectPair left right st i0 (c + 1)).me_in_next_experiment x
          = setPtr st.me_in_next_experiment (left.getD i0 0) (right.getD i0 0) x := hrec
        _ = st.me_in_next_experiment x :=
            if_neg (fun h => hj i0 (Nat.le_refl i0) (by omega) h.symm)
  
/-- The inner linking loop touches the `me_in_previous_experiment` pointer
only of the right-list rows at the positions it visits. -/
theorem connectPair_prev_preserve (left right : List Nat) (x : Nat) :
    ∀ (cnt i0 : Nat) (st : LinkState),
    (∀ j, i0 ≤ j → j < i0 + cnt → right.getD j 0 ≠ x) →
    (connectPair left right st i0 cnt).me_in_previous_experiment x =
      st.me_in_previous_experiment x := by
  intro cnt
  induction cnt with
  | zero => intro i0 st _; rfl
  | succ c ih =>
      intro i0 st hj
      have hrec := ih (i0 + 1)
        { me_in_next_experiment :=
            setPtr st.me_in_next_experiment (left.getD i0 0) (right.getD i0 0)
          me_in_previous_experiment :=
            setPtr st.me_in_previous_experiment (right.getD i0 0) (left.getD i0 0) }
        (fun j h1 h2 => hj j (Nat.le_of_succ_le h1) (by omega))
      calc (connectPair left right st i0 (c + 1)).me_in_previous_experiment x
          = setPtr st.me_in_previous_experiment (right.getD i0 0) (left.getD i0 0) x := hrec
        _ = st.me_in_previous_experiment x :=
            if_neg (fun h => hj i0 (Nat.le_refl i0) (by omega) h.symm)

/-- After the inner linking loop, each visited left row's
`me_in_next_experiment` is the right row at the same position: the loop
writes positions in ascending order and, with a duplicate-free left list,
no later write clobbers an earlier one. -/
theorem connectPair_next_at (left right : List Nat) (hnd : left.Nodup) :
    ∀ (cnt i0 : Nat) (st : LinkState) (i : Nat),
    i0 ≤ i → i < i0 + cnt → i0 + cnt ≤ left.length →
    (connectPair left right st i0 cnt).me_in_next_experiment (left.getD i 0) =
      some (right.getD i 0) := by
  intro cnt
  induction cnt with
  | zero =>
      intro i0 st i h1 h2 _
      omega
  | succ c ih =>
      intro i0 st i h1 h2 hbound
      rcases Nat.eq_or_lt_of_le h1 with heq | hlt
      · subst heq
        have hkey : ∀ j, i0 + 1 ≤ j → j < i0 + 1 + c → left.getD j 0 ≠ left.getD i0 0 := by
          intro j hj1 hj2 hcontra
          have hjlen : j < left.length := by omega
          have hilen : i0 < left.length := by omega
          rw [List.getD_eq_getElem left 0 hjlen, List.getD_eq_getElem left 0 hilen] at hcontra
          have : j = i0 := (List.Nodup.getElem_inj_iff hnd).mp hcontra
          omega
        calc (connectPair left right st i0 (c + 1)).me_in_next_experiment (left.getD i0 0)
            = setPtr st.me_in_next_experiment (left.getD i0 0) (right.getD i0 0)
                (left.getD i0 0) :=
              connectPair_next_preserve left right (left.getD i0 0) c (i0 + 1) _ hkey
          _ = some (right.getD i0 0) := if_pos rfl
      · exact ih (i0 + 1) _ i hlt (by omega) (by omega)

/-- After the inner linking loop, each visited right row's
`me_in_previous_experiment` is the left row at the same position. -/
theorem connectPair_prev_at (left right : List Nat) (hnd : right.Nodup) :
    ∀ (cnt i0 : Nat) (st : LinkState) (i : Nat),
    i0 ≤ i → i < i0 + cnt → i0 + cnt ≤ right.length →
    (connectPair left right st i0 cnt).me_in_previous_experiment (right.getD i 0) =
      some (left.getD i 0) := by
  intro cnt
  induction cnt with
  | zero =>
      intro i0 st i h1 h2 _
      omega
  | succ c ih =>
      intro i0 st i h1 h2 hbound
      rcases Nat.eq_or_lt_of_le h1 with heq | hlt
      · subst heq
        have hkey : ∀ j, i0 + 1 ≤ j → j < i0 + 1 + c → right.getD j 0 ≠ right.getD i0 0 := by
          intro j hj1 hj2 hcontra
          have hjlen : j < right.length := by omega
          have hilen : i0 < right.length := by omega
          rw [List.getD_eq_getElem right 0 hjlen, List.getD_eq_getElem right 0 hilen] at hcontra
          have : j = i0 := (List.Nodup.getElem_inj_iff hnd).mp hcontra
          omega
        calc (connectPair left right st i0 (c + 1)).me_in_previous_experiment (right.getD i0 0)
            = setPtr st.me_in_previous_experiment (right.getD i0 0) (left.getD i0 0)
                (right.getD i0 0) :=
              connectPair_prev_preserve left right (right.getD i0 0) c (i0 + 1) _ hkey
          _ = some (left.getD i0 0) := if_pos rfl
      · exact ih (i0 + 1) _ i hlt (by omega) (by omega)

/-- The outer linking loop touches the `me_in_next_experiment` pointer only
of rows occurring in some experiment's participant list. -/
theorem connect_next_preserve :
    ∀ (lists : List (List Nat)) (st : LinkState) (num x : Nat),
    (∀ l ∈ lists, l.length = num) → x ∉ lists.flatten →
    (SequenceOfExperiments.connect_participants_between_experiments st num
      lists).me_in_next_experiment x = st.me_in_next_experiment x := by
  intro lists
  induction lists with
  | nil => intro st num x _ _; rfl
  | cons l t ih =>
      intro st num x hlen hx
      cases t with
      | nil => rfl
      | cons r rest =>
          have hxl : x ∉ l := fun h => hx (by simp [List.flatten]; exact Or.inl h)
          have hxt : x ∉ (r :: rest).flatten := fun h => hx (by simp [List.flatten]; simp [List.flatten] at h; tauto)
          have hinner : (connectPair l r st 0 num).me_in_next_experiment x =
              st.me_in_next_experiment x := by
            refine connectPair_next_preserve l r x num 0 st ?_
            intro j _ hj2 hcontra
            have hjlen : j < l.length := by
              have := hlen l (List.mem_cons_self l (r :: rest))
              omega
            rw [List.getD_eq_getElem l 0 hjlen] at hcontra
            exact hxl (hcontra ▸ List.getElem_mem hjlen)
          calc (SequenceOfExperiments.connect_participants_between_experiments st num
                (l :: r :: rest)).me_in_next_experiment x
              = st.me_in_next_experiment x := by
                rw [show SequenceOfExperiments.connect_participants_between_experiments st num
                    (l :: r :: rest) =
                  SequenceOfExperiments.connect_participants_between_experiments
                    (connectPair l r st 0 num) num (r :: rest) from rfl]
                rw [ih (connectPair l r st 0 num) num x
                  (fun l2 h => hlen l2 (List.mem_cons_of_mem l h)) hxt]
                exact hinner

/-- The outer linking loop touches the `me_in_previous_experiment` pointer
only of rows occurring in a participant list other than the first. -/
theorem connect_prev_preserve :
    ∀ (lists : List (List Nat)) (st : LinkState) (num x : Nat),
    (∀ l ∈ lists, l.length = num) → x ∉ lists.tail.flatten →
    (SequenceOfExperiments.connect_participants_between_experiments st num
      lists).me_in_previous_experiment x = st.me_in_previous_experiment x := by
  intro lists
  induction lists with
  | nil => intro st num x _ _; rfl
  | cons l t ih =>
      intro st num x hlen hx
      cases t with
      | nil => rfl
      | cons r rest =>
          have hxr : x ∉ r := fun h => hx (by simp [List.flatten]; exact Or.inl h)
          have hxt : x ∉ (r :: rest).tail.flatten := fun h => hx (by simp [List.flatten] at h ⊢; tauto)
          have hinner : (connectPair l r st 0 num).me_in_previous_experiment x =
              st.me_in_previous_experiment x := by
            refine connectPair_prev_preserve l r x num 0 st ?_
            intro j _ hj2 hcontra
            have hjlen : j < r.length := by
              have := hlen r (List.mem_cons_of_mem l (List.mem_cons_self r rest))
              omega
            rw [List.getD_eq_getElem r 0 hjlen] at hcontra
            exact hxr (hcontra ▸ List.getElem_mem hjlen)
          calc (SequenceOfExperiments.connect_participants_between_experiments st num
                (l :: r :: rest)).me_in_previous_experiment x
              = st.me_in_previous_experiment x := by
                rw [show SequenceOfExperiments.connect_participants_between_experiments st num
                    (l :: r :: rest) =
                  SequenceOfExperiments.connect_participants_between_experiments
                    (connectPair l r st 0 num) num (r :: rest) from rfl]
                rw [ih (connectPair l r st 0 num) num x
                  (fun l2 h => hlen l2 (List.mem_cons_of_mem l h)) hxt]
                exact hinner

/-- Core of C4, by induction along the chain of participant lists. -/
theorem connect_links_aux :
    ∀ (lists : List (List Nat)) (st : LinkState) (num k i : Nat),
    (∀ l ∈ lists, l.length = num) → lists.flatten.Nodup →
    k + 1 < lists.length → i < num →
    ((SequenceOfExperiments.connect_participants_between_experiments st num
        lists).me_in_next_experiment ((lists.getD k []).getD i 0) =
      some ((lists.getD (k + 1) []).getD i 0)) ∧
    ((SequenceOfExperiments.connect_participants_between_experiments st num
        lists).me_in_previous_experiment ((lists.getD (k + 1) []).getD i 0) =
      some ((lists.getD k []).getD i 0)) := by
  intro lists
  induction lists with
  | nil =>
      intro st num k i _ _ hk _
      exact absurd hk (by simp)
  | cons l t ih =>
      intro st num k i hlen hnd hk hi
      cases t with
      | nil => exact absurd hk (by simp)
      | cons r rest =>
          have hstep : SequenceOfExperiments.connect_participants_between_experiments st num
              (l :: r :: rest) =
            SequenceOfExperiments.connect_participants_between_experiments
              (connectPair l r st 0 num) num (r :: rest) := rfl
          have hlen2 : ∀ l2 ∈ r :: rest, l2.length = num :=
            fun l2 h => hlen l2 (List.mem_cons_of_mem l h)
          have hnd1 : (l ++ (r :: rest).flatten).Nodup := by
            rw [← List.flatten_cons]
            exact hnd
          have hndt : (r :: rest).flatten.Nodup := hnd1.of_append_right
          cases k with
          | zero =>
              have hll : l.length = num := hlen l (List.mem_cons_self l (r :: rest))
              have hrl : r.length = num := hlen r (List.mem_cons_of_mem l
                (List.mem_cons_self r rest))
              have hndl : l.Nodup := hnd1.of_append_left
              have hnd2 : (r ++ rest.flatten).Nodup := by
                rw [← List.flatten_cons]
                exact hndt
              have hndr : r.Nodup := hnd2.of_append_left
              have hil : l.getD i 0 ∈ l := by
                rw [List.getD_eq_getElem l 0 (by omega)]
                exact List.getElem_mem (by omega)
              have hir : r.getD i 0 ∈ r := by
                rw [List.getD_eq_getElem r 0 (by omega)]
                exact List.getElem_mem (by omega)
              have hx1 : l.getD i 0 ∉ (r :: rest).flatten := by
                intro hmem
                exact List.disjoint_of_nodup_append hnd1 hil hmem
              have hx2 : r.getD i 0 ∉ (r :: rest).tail.flatten := by
                intro hmem
                exact List.disjoint_of_nodup_append hnd2 hir hmem
              constructor
              · show (SequenceOfExperiments.connect_participants_between_experiments st num
                  (l :: r :: rest)).me_in_next_experiment (l.getD i 0) = some (r.getD i 0)
                rw [hstep, connect_next_preserve (r :: rest) _ num _ hlen2 hx1]
                exact connectPair_next_at l r hndl num 0 st i (Nat.zero_le i)
                  (by omega) (by omega)
              · show (SequenceOfExperiments.connect_participants_between_experiments st num
                  (l :: r :: rest)).me_in_previous_experiment (r.getD i 0) = some (l.getD i 0)
                rw [hstep, connect_prev_preserve (r :: rest) _ num _ hlen2 hx2]
                exact connectPair_prev_at l r hndr num 0 st i (Nat.zero_le i)
                  (by omega) (by omega)
          | succ k2 =>
              have hk2 : k2 + 1 < (r :: rest).length := by
                have : (l :: r :: rest).length = (r :: rest).length + 1 := rfl
                omega
              have hres := ih (connectPair l r st 0 num) num k2 i hlen2 hndt hk2 hi
              exact hres

/-- C4: after `connect_participants_between_experiments`, for every
participant position `i` below the sequence's participant count and every
adjacent pair of experiments `k`, `k+1` in the chain, participant `i` of
experiment `k` points forward (`me_in_next_experiment`) to participant `i`
of experiment `k+1`, and the latter points back
(`me_in_previous_experiment`) to the former. The precondition that the
per-experiment participant lists all have the sequence's participant count
and correspond positionally is the claim's; that the participant rows are
pairwise distinct (`Nodup` of the concatenation) reflects the data model —
each per-experiment participant row belongs to exactly one experiment. -/
theorem C4_connect_links (st : LinkState) (num : Nat) (partLists : List (List Nat))
    (hlen : ∀ l ∈ partLists, l.length = num)
    (hnd : partLists.flatten.Nodup)
    (k i : Nat) (hk : k + 1 < partLists.length) (hi : i < num) :
    ((SequenceOfExperiments.connect_participants_between_experiments st num
        partLists).me_in_next_experiment ((partLists.getD k []).getD i 0) =
      some ((partLists.getD (k + 1) []).getD i 0)) ∧
    ((SequenceOfExperiments.connect_participants_between_experiments st num
        partLists).me_in_previous_experiment ((partLists.getD (k + 1) []).getD i 0) =
      some ((partLists.getD k []).getD i 0)) :=
  connect_links_aux partLists st num k i hlen hnd hk hi

/-- An empty participant pointer state: every forward/backward pointer
null. -/
def linkStateEmpty : LinkState :=
  { me_in_next_experiment := fun _ => none
    me_in_previous_experiment := fun _ => none }

/-- C4 witness: two experiments with participant lists `[1, 2]` and
`[3, 4]`; after linking, participant at position 1 of experiment 0 (row 2)
points forward to row 4, which points back to row 2. -/
theorem C4_connect_witness :
    ((SequenceOfExperiments.connect_participants_between_experiments linkStateEmpty 2
        [[1, 2], [3, 4]]).me_in_next_experiment 2 = some 4) ∧
    ((SequenceOfExperiments.connect_participants_between_experiments linkStateEmpty 2
        [[1, 2], [3, 4]]).me_in_previous_experiment 4 = some 2) :=
  C4_connect_links linkStateEmpty 2 [[1, 2], [3, 4]] (by decide) (by decide) 0 1
    (by decide) (by decide)

/-- String concatenation concatenates the underlying character lists. -/
theorem string_toList_append (a b : String) : (a ++ b).toList = a.toList ++ b.toList := by
  cases a
  cases b
  rfl

/-- The character list of the one-character separator string. -/
theorem string_toList_eq_sep : "=".toList = ['='] := by decide

/-- C8 fails as frozen: for a sequence the claim says `start_url()` embeds
the sequence's `code`; the source formats `self.id` — the database primary
key — into the query string, not `self.code`. At the concrete row with
`id = 7` and `code = "abcdefgh"`, the produced URL is
`/InitializeSequence/?sequence_of_experiments_code=7`: it does not contain
the code as the parameter's value, nor anywhere else in the URL. -/
theorem C8_url_counterexample :
    ¬ embedsQueryParam (SequenceOfExperiments.start_url ⟨7, none, "abcdefgh"⟩)
      constants.sequence_of_experiments_code "abcdefgh" ∧
    SequenceOfExperiments.start_url ⟨7, none, "abcdefgh"⟩ =
      "/InitializeSequence/?sequence_of_experiments_code=7" ∧
    ¬ List.IsInfix ("abcdefgh".toList)
      (SequenceOfExperiments.start_url ⟨7, none, "abcdefgh"⟩).toList := by
  decide

/-- C8 amended: for every sequence, `start_url()` embeds the sequence's
database id (primary key) — not its code — as the value of the
sequence-code query parameter; for every participant, `start_url()` embeds
the participant's code as the value of the participant-code query
parameter. -/
theorem C8_url_amended (s : SequenceOfExperimentsRow) (p : ParticipantRow) :
    embedsQueryParam (SequenceOfExperiments.start_url s)
      constants.sequence_of_experiments_code (toString s.id) ∧
    embedsQueryParam (Participant.start_url p)
      constants.participant_in_sequence_of_experiments_code p.code := by
  constructor
  · refine ⟨"/InitializeSequence/?".toList, [], ?_⟩
    show _ = (("/InitializeSequence/?" ++ constants.sequence_of_experiments_code ++ "=")
      ++ toString s.id).toList
    simp [string_toList_append, string_toList_eq_sep]
  · refine ⟨(SequenceOfExperiments.start_url p.sequence_of_experiments ++ "&").toList,
      [], ?_⟩
    show _ = (((SequenceOfExperiments.start_url p.sequence_of_experiments ++ "&"
      ++ constants.participant_in_sequence_of_experiments_code) ++ "=") ++ p.code).toList
    simp [string_toList_append, string_toList_eq_sep]
